import Mathlib

/-!
Shallow embedding of the dice-notation engine of Zxela/dnd-dice-roller
(src/js/parser.js and src/js/roller.js), together with theorems settling
the frozen claims about it.

Modelling conventions:

* The random source `crypto.getRandomValues` fills one `Uint32` per call.
  We model the sequence of 32-bit words the platform would supply as a
  stream `g : Nat → Nat` together with a running draw counter that is
  threaded through every rolling function.  All theorems are quantified
  over arbitrary streams, which subsumes the 32-bit-bounded ones.
* JavaScript numbers are modelled as `Nat` where the source only ever
  holds nonnegative integers (die values, counts, sides) and as `Int`
  where sign matters (the expression modifier, totals).
* `id` and `timestamp` of a RollResult (a UUID and a wall-clock instant)
  are generated from ambient effects and are irrelevant to every claim,
  so the embedded `RollResult` omits them.
* Loops of the source that are bounded by a counter are embedded with an
  explicit fuel argument equal to the exact iteration bound of the
  source, keeping every definition structurally recursive and hence
  evaluable by `decide`.
-/

/-- The stream of 32-bit words produced by successive calls to the
platform random source; index = how many draws happened before. -/
def RandSrc : Type := Nat → Nat

/-- `randomInt` from roller.js: `min + (word % (max - min + 1))`.
The only call site is `randomInt(1, sides)`.  For `sides ≥ 1` the Nat
arithmetic below agrees exactly with the JavaScript computation; for
`sides = 0` JavaScript computes `word % 0 = NaN` (so the produced value
is NaN), while this model yields `1 + word % 0 = 1 + word` — in both
readings the produced value violates `value ≤ sides`, which is the only
fact any theorem below uses about that degenerate case. -/
def randomInt (word : Nat) (min max : Nat) : Nat :=
  min + word % (max - min + 1)

/-- `rollDie` from roller.js at draw index `k` of stream `g`. -/
def rollDie (g : RandSrc) (k : Nat) (sides : Nat) : Nat :=
  randomInt (g k) 1 sides

/-- Keep/drop direction: `'highest'` or `'lowest'` in the source. -/
inductive KDType where
  | highest
  | lowest
deriving DecidableEq

/-- A keep or drop specification `{ type, count }` from the parser. -/
structure KDSpec where
  type : KDType
  count : Nat
deriving DecidableEq

/-- A dice group of the AST produced by parser.js. -/
structure DiceGroup where
  count : Nat
  sides : Nat
  keep : Option KDSpec
  drop : Option KDSpec
  exploding : Bool
  reroll : Option Nat
deriving DecidableEq

/-- The AST returned by `parse`: `{ dice: [...], modifier }`. -/
structure Expression where
  dice : List DiceGroup
  modifier : Int
deriving DecidableEq

/-- One die outcome.  JavaScript omits absent fields (`dropped`,
`exploded`, `rerolled`, `originalValue`); absence is modelled by the
`false` / `none` values used when the source does not set them. -/
structure RollEntry where
  die : String
  value : Nat
  kept : Bool
  dropped : Bool
  exploded : Bool
  rerolled : Bool
  originalValue : Option Nat
deriving DecidableEq

instance : Inhabited RollEntry :=
  ⟨⟨"", 0, false, false, false, false, none⟩⟩

/-- The die label string, `` `d${sides}` `` in the source. -/
def dieLabel (sides : Nat) : String :=
  "d" ++ toString sides

/-- The safety limit of roller.js for explosions within one group. -/
def maxExplosions : Nat := 100

/-- The explosion `while` loop of `rollDiceGroup`: the loop runs while
the previous value equals `sides` and `ec < maxExplosions`; each pass
draws one die, increments `ec`, appends an exploded entry, and breaks
when the new value is not `sides`.  Returns the appended entries, the
next draw index and the updated explosion counter.  `fuel` is passed as
`maxExplosions - ec` at the call site: the counter rises by one per
pass, so fuel can only run out when `ec` has reached `maxExplosions`,
where the source loop guard fails too — the `fuel = 0` branch returns
exactly what the guard-failure branch returns. -/
def explodeLoop (g : RandSrc) (sides : Nat) :
    Nat → Nat → Nat → Nat → List RollEntry × Nat × Nat
  | 0, _, k, ec => ([], k, ec)
  | fuel + 1, prev, k, ec =>
    if prev = sides ∧ ec < maxExplosions then
      let v := rollDie g k sides
      let entry : RollEntry :=
        ⟨dieLabel sides, v, true, false, true, false, none⟩
      if v = sides then
        let r := explodeLoop g sides fuel v (k + 1) (ec + 1)
        (entry :: r.1, r.2)
      else
        ([entry], k + 1, ec + 1)
    else
      ([], k, ec)

/-- One iteration of the initial `for` loop of `rollDiceGroup` up to
(and excluding) the explosion handling: roll the die, apply the single
reroll when configured, and build the entry.  Returns the entry and the
next draw index. -/
def rollInitialDie (g : RandSrc) (sides : Nat) (reroll : Option Nat)
    (k : Nat) : RollEntry × Nat :=
  let value := rollDie g k sides
  match reroll with
  | some target =>
    if value = target then
      (⟨dieLabel sides, rollDie g (k + 1) sides, true, false, false, true,
        some value⟩, k + 2)
    else
      (⟨dieLabel sides, value, true, false, false, false, none⟩, k + 1)
  | none =>
    (⟨dieLabel sides, value, true, false, false, false, none⟩, k + 1)

/-- The initial-dice `for` loop of `rollDiceGroup`, `n` iterations left.
Threads the draw index and the group-wide explosion counter. -/
def rollDiceLoop (g : RandSrc) (dg : DiceGroup) :
    Nat → Nat → Nat → List RollEntry × Nat × Nat
  | 0, k, ec => ([], k, ec)
  | n + 1, k, ec =>
    let (entry, k1) := rollInitialDie g dg.sides dg.reroll k
    let (expl, k2, ec2) :=
      if dg.exploding = true ∧ entry.value = dg.sides ∧ ec < maxExplosions
      then explodeLoop g dg.sides (maxExplosions - ec) entry.value k1 ec
      else ([], k1, ec)
    let (rest, k3, ec3) := rollDiceLoop g dg n k2 ec2
    (entry :: (expl ++ rest), k3, ec3)

/-- `rollDiceGroup` from roller.js: rolls the whole group, starting
with a fresh explosion counter. -/
def rollDiceGroup (g : RandSrc) (dg : DiceGroup) (k : Nat) :
    List RollEntry × Nat × Nat :=
  rollDiceLoop g dg dg.count k 0

/-- The `{ value, index }` pairs of the currently kept rolls, in index
order — the `map`/`filter` stage shared by `applyKeep` and `applyDrop`. -/
def keptPairs (rolls : List RollEntry) : List (Nat × Nat) :=
  (rolls.enum.filter (fun p => p.2.kept)).map (fun p => (p.2.value, p.1))

/-- The JavaScript comparator (total, with ties resolved towards the
earlier original index).  `Array.prototype.sort` is stable, and the
source comparator orders by value only, so the sorted sequence is the
unique one ordered by value (descending for `highest`, ascending for
`lowest`) with ties in original roll order; that total order is the one
decided here. -/
def cmpLe (t : KDType) (p q : Nat × Nat) : Bool :=
  match t with
  | .highest => decide (q.1 < p.1) || (decide (p.1 = q.1) && decide (p.2 ≤ q.2))
  | .lowest => decide (p.1 < q.1) || (decide (p.1 = q.1) && decide (p.2 ≤ q.2))

/-- The sorted kept `{ value, index }` pairs computed (identically) by
`applyKeep` and `applyDrop`. -/
def sortedKept (t : KDType) (rolls : List RollEntry) : List (Nat × Nat) :=
  (keptPairs rolls).mergeSort (cmpLe t)

/-- `applyKeep` from roller.js.  The source clears `kept` on every kept
roll and then re-marks the first `count` of the sorted ordering; both
mutation passes touch disjoint aspects per index, so they collapse to
the pointwise update below. -/
def applyKeep (rolls : List RollEntry) (keep : Option KDSpec) :
    List RollEntry :=
  match keep with
  | none => rolls
  | some kp =>
    let toKeep := ((sortedKept kp.type rolls).take kp.count).map (fun p => p.2)
    rolls.mapIdx (fun i r =>
      if toKeep.contains i then { r with kept := true }
      else if r.kept then { r with kept := false }
      else r)

/-- `applyDrop` from roller.js: the first `count` of the sorted kept
ordering become `kept = false, dropped = true`. -/
def applyDrop (rolls : List RollEntry) (drop : Option KDSpec) :
    List RollEntry :=
  match drop with
  | none => rolls
  | some dp =>
    let toDrop := ((sortedKept dp.type rolls).take dp.count).map (fun p => p.2)
    rolls.mapIdx (fun i r =>
      if toDrop.contains i then { r with kept := false, dropped := true }
      else r)

/-- `calculateSubtotal` from roller.js: `filter(kept).reduce(+value, 0)`. -/
def calculateSubtotal (rolls : List RollEntry) : Nat :=
  (rolls.filter (fun r => r.kept)).foldl (fun sum r => sum + r.value) 0

/-- The per-group body of the `for` loop of `executeRoll`: roll the
group, apply drop first, then keep, then append; threads the draw
index across groups. -/
def rollGroups (g : RandSrc) : List DiceGroup → Nat → List RollEntry × Nat
  | [], k => ([], k)
  | dg :: rest, k =>
    let r0 := rollDiceGroup g dg k
    let rolls1 := applyDrop r0.1 dg.drop
    let rolls2 := applyKeep rolls1 dg.keep
    let rr := rollGroups g rest r0.2.1
    (rolls2 ++ rr.1, rr.2)

/-- The embedded `RollResult` (`id` and `timestamp` omitted, see the
header comment). -/
structure RollResult where
  input : String
  parsed : Expression
  rolls : List RollEntry
  subtotal : Nat
  modifier : Int
  total : Int
deriving DecidableEq

/-- `executeRoll` from roller.js against the draw stream `g`. -/
def executeRoll (g : RandSrc) (parsed : Expression) (input : String) :
    RollResult :=
  let allRolls := (rollGroups g parsed.dice 0).1
  let subtotal := calculateSubtotal allRolls
  let total : Int := (subtotal : Int) + parsed.modifier
  ⟨input, parsed, allRolls, subtotal, parsed.modifier, total⟩

/-- Token kinds of parser.js (EOF is a real token the tokenizer
appends). -/
inductive Token where
  | num (n : Nat)
  | d
  | plus
  | minus
  | kh
  | kl
  | dh
  | dl
  | explode
  | reroll
  | percent
  | eof
deriving DecidableEq

/-- Numeric value of a decimal digit character. -/
def digitVal (c : Char) : Nat := c.toNat - 48

/-- The normalization of `tokenize`:
`input.toLowerCase().replace(/\s+/g, '')`.  JavaScript `\s` and
`Char.isWhitespace` agree on all ASCII notation inputs. -/
def normChars (s : String) : List Char :=
  (s.data.map Char.toLower).filter (fun c => !c.isWhitespace)

/-- The scanning loop of `tokenize`.  Two-character keywords are tried
before single-character dispatch, exactly as in the source; a digit run
becomes one `NUMBER` token via base-10 accumulation (`parseInt`).
`fuel` starts at the character count and every pass consumes at least
one character, so the `fuel = 0` branch is unreachable from
`tokenize`.  The source carries the zero-based position in the lexical
error message; no claim inspects messages, so the position is dropped
here. -/
def tokenizeFuel : Nat → List Char → Except String (List Token)
  | _, [] => .ok [.eof]
  | 0, _ :: _ => .error "out of fuel"
  | fuel + 1, c :: cs =>
    if c.isDigit then
      let digits := (c :: cs).takeWhile Char.isDigit
      let n := digits.foldl (fun a ch => 10 * a + digitVal ch) 0
      let rest := (c :: cs).dropWhile Char.isDigit
      (tokenizeFuel fuel rest).map (fun ts => Token.num n :: ts)
    else
      match c, cs with
      | 'k', 'h' :: cs2 => (tokenizeFuel fuel cs2).map (fun ts => Token.kh :: ts)
      | 'k', 'l' :: cs2 => (tokenizeFuel fuel cs2).map (fun ts => Token.kl :: ts)
      | 'd', 'h' :: cs2 => (tokenizeFuel fuel cs2).map (fun ts => Token.dh :: ts)
      | 'd', 'l' :: cs2 => (tokenizeFuel fuel cs2).map (fun ts => Token.dl :: ts)
      | 'd', rest => (tokenizeFuel fuel rest).map (fun ts => Token.d :: ts)
      | '+', rest => (tokenizeFuel fuel rest).map (fun ts => Token.plus :: ts)
      | '-', rest => (tokenizeFuel fuel rest).map (fun ts => Token.minus :: ts)
      | '!', rest => (tokenizeFuel fuel rest).map (fun ts => Token.explode :: ts)
      | 'r', rest => (tokenizeFuel fuel rest).map (fun ts => Token.reroll :: ts)
      | '%', rest => (tokenizeFuel fuel rest).map (fun ts => Token.percent :: ts)
      | ch, _ => .error ("Unexpected character " ++ String.mk [ch])

/-- `tokenize` from parser.js on an already-normalized character list. -/
def tokenize (l : List Char) : Except String (List Token) :=
  tokenizeFuel l.length l

/-- A parsed term: dice notation or a bare number. -/
inductive PTerm where
  | dice (g : DiceGroup)
  | num (n : Nat)
deriving DecidableEq

/-- `Parser.parseModifiers`: consume keep / drop / explode / reroll
tokens, last occurrence of a slot winning, until a non-modifier token.
A reroll token not followed by a number is a hard error. -/
def parseModifiers : DiceGroup → List Token → Except String (DiceGroup × List Token)
  | dg, Token.kh :: Token.num n :: ts =>
    parseModifiers { dg with keep := some ⟨.highest, n⟩ } ts
  | dg, Token.kh :: ts =>
    parseModifiers { dg with keep := some ⟨.highest, 1⟩ } ts
  | dg, Token.kl :: Token.num n :: ts =>
    parseModifiers { dg with keep := some ⟨.lowest, n⟩ } ts
  | dg, Token.kl :: ts =>
    parseModifiers { dg with keep := some ⟨.lowest, 1⟩ } ts
  | dg, Token.dh :: Token.num n :: ts =>
    parseModifiers { dg with drop := some ⟨.highest, n⟩ } ts
  | dg, Token.dh :: ts =>
    parseModifiers { dg with drop := some ⟨.highest, 1⟩ } ts
  | dg, Token.dl :: Token.num n :: ts =>
    parseModifiers { dg with drop := some ⟨.lowest, n⟩ } ts
  | dg, Token.dl :: ts =>
    parseModifiers { dg with drop := some ⟨.lowest, 1⟩ } ts
  | dg, Token.explode :: ts =>
    parseModifiers { dg with exploding := true } ts
  | dg, Token.reroll :: Token.num n :: ts =>
    parseModifiers { dg with reroll := some n } ts
  | _, Token.reroll :: _ =>
    .error "Expected number after r (reroll)"
  | dg, ts => .ok (dg, ts)

/-- `Parser.parseDice`: expect `d`, read the sides (`%` means 100),
then the modifiers.  Callers only invoke it with a leading `d` token;
the final catch-all is the `expect(D)` failure. -/
def parseDice (count : Nat) : List Token → Except String (DiceGroup × List Token)
  | Token.d :: Token.percent :: ts =>
    parseModifiers ⟨count, 100, none, none, false, none⟩ ts
  | Token.d :: Token.num n :: ts =>
    parseModifiers ⟨count, n, none, none, false, none⟩ ts
  | Token.d :: _ => .error "Expected number or % after d"
  | _ => .error "Expected D"

/-- `Parser.parseTerm`: dice when the lookahead is `d` or a number
immediately followed by `d`; otherwise a bare number.  The empty case
is unreachable because `tokenize` always appends the EOF token. -/
def parseTerm : List Token → Except String (PTerm × List Token)
  | Token.d :: ts =>
    (parseDice 1 (Token.d :: ts)).map (fun p => (PTerm.dice p.1, p.2))
  | Token.num n :: Token.d :: ts =>
    (parseDice n (Token.d :: ts)).map (fun p => (PTerm.dice p.1, p.2))
  | Token.num n :: ts => .ok (PTerm.num n, ts)
  | _ :: _ => .error "Unexpected token, expected number or d"
  | [] => .error "Unexpected end of tokens"

/-- The `while (PLUS || MINUS)` loop of `Parser.parseExpression`,
followed by the EOF check.  Dice terms are appended unsigned; number
terms are added with the sign of the operator.  Each pass consumes at
least two tokens and burns one unit of fuel, so starting the fuel at
the token count makes the fuel-exhaustion branches unreachable. -/
def parseExprLoop : Nat → List DiceGroup → Int → List Token → Except String (Expression × List Token)
  | fuel + 1, acc, m, Token.plus :: ts =>
    match parseTerm ts with
    | .error e => .error e
    | .ok (PTerm.dice gp, ts2) => parseExprLoop fuel (acc ++ [gp]) m ts2
    | .ok (PTerm.num n, ts2) => parseExprLoop fuel acc (m + n) ts2
  | fuel + 1, acc, m, Token.minus :: ts =>
    match parseTerm ts with
    | .error e => .error e
    | .ok (PTerm.dice gp, ts2) => parseExprLoop fuel (acc ++ [gp]) m ts2
    | .ok (PTerm.num n, ts2) => parseExprLoop fuel acc (m - n) ts2
  | _, acc, m, Token.eof :: ts => .ok (⟨acc, m⟩, Token.eof :: ts)
  | 0, _, _, Token.plus :: _ => .error "out of fuel"
  | 0, _, _, Token.minus :: _ => .error "out of fuel"
  | _, _, _, _ :: _ => .error "Unexpected token at end of expression"
  | _, _, _, [] => .error "Unexpected end of tokens"

/-- `Parser.parseExpression`: first term, then the operator loop. -/
def parseExpression (ts : List Token) : Except String Expression :=
  match parseTerm ts with
  | .error e => .error e
  | .ok (PTerm.dice gp, ts2) =>
    match parseExprLoop ts2.length [gp] 0 ts2 with
    | .error e => .error e
    | .ok (e, _) => .ok e
  | .ok (PTerm.num n, ts2) =>
    match parseExprLoop ts2.length [] (Int.ofNat n) ts2 with
    | .error e => .error e
    | .ok (e, _) => .ok e

/-- `input.trim()`: strip leading and trailing whitespace.  Spelled on
the character list because the `Substring` machinery behind
`String.trim` is not kernel-reducible; the observable behavior on the
ASCII notation strings is identical. -/
def trimChars (l : List Char) : List Char :=
  ((l.dropWhile Char.isWhitespace).reverse.dropWhile Char.isWhitespace).reverse

/-- `parse` from parser.js.  The JavaScript non-string guard cannot
arise in a typed model; the empty / blank guard is kept. -/
def parse (input : String) : Except String Expression :=
  let trimmed := trimChars input.data
  if trimmed.length = 0 then .error "Input must be a non-empty string"
  else
    match tokenize (normChars (String.mk trimmed)) with
    | .error e => .error e
    | .ok ts => parseExpression ts

deriving instance DecidableEq for Except

/-- The strict ordering the claims describe for keep/drop selection:
by value (descending for highest, ascending for lowest), ties broken
towards the earlier original roll index. -/
def strictOrd (t : KDType) (p q : Nat × Nat) : Prop :=
  match t with
  | .highest => q.1 < p.1 ∨ (p.1 = q.1 ∧ p.2 < q.2)
  | .lowest => p.1 < q.1 ∨ (p.1 = q.1 ∧ p.2 < q.2)

/-- How many 32-bit words the platform source can deliver that
`randomInt(1, sides)` maps to the value `v`. -/
def preimageCount (sides v : Nat) : Nat :=
  ((Finset.range (2 ^ 32)).filter (fun word => randomInt word 1 sides = v)).card

/-- The per-group pipeline of the `for` loop of `executeRoll`: roll
the group, then drop, then keep — the segment of entries that group
contributes to the result. -/
def groupRolls (g : RandSrc) (dg : DiceGroup) (k : Nat) : List RollEntry :=
  applyKeep (applyDrop (rollDiceGroup g dg k).1 dg.drop) dg.keep

/-- The per-group segments of an executeRoll invocation, in group
order, threading the draw index exactly as the loop of `executeRoll`
does; their concatenation is the `rolls` list of the result. -/
def groupSegments (g : RandSrc) : List DiceGroup → Nat → List (List RollEntry)
  | [], _ => []
  | dg :: rest, k =>
    groupRolls g dg k :: groupSegments g rest (rollDiceGroup g dg k).2.1

/-! ## Helper lemmas -/

/-- `reduce((s, r) => s + r.value, 0)` is the sum of the values. -/
theorem foldl_add_value (l : List RollEntry) :
    ∀ n : Nat, l.foldl (fun s r => s + r.value) n = n + (l.map (fun r => r.value)).sum := by
  induction l with
  | nil => intro n; simp
  | cons r rs ih =>
    intro n
    simp only [List.foldl_cons, List.map_cons, List.sum_cons, ih]
    omega

/-- `calculateSubtotal` computes the sum of the values of the kept
entries. -/
theorem calculateSubtotal_eq (l : List RollEntry) :
    calculateSubtotal l = ((l.filter (fun r => r.kept)).map (fun r => r.value)).sum := by
  unfold calculateSubtotal
  rw [foldl_add_value]
  omega

/-- The operator loop of the parser is additive in its accumulators:
starting from dice `acc` and modifier `m` it produces `acc` extended by
the groups of the remaining input, and `m` shifted by the signed sum of
the remaining bare numbers. -/
theorem parseExprLoop_shift :
    ∀ (fuel : Nat) (acc : List DiceGroup) (m : Int) (ts : List Token),
      parseExprLoop fuel acc m ts =
        (parseExprLoop fuel [] 0 ts).map
          (fun p => (⟨acc ++ p.1.dice, m + p.1.modifier⟩, p.2)) := by
  intro fuel
  induction fuel with
  | zero =>
    intro acc m ts
    cases ts with
    | nil => rfl
    | cons t rest => cases t <;> simp [parseExprLoop, Except.map]
  | succ fuel ih =>
    intro acc m ts
    cases ts with
    | nil => rfl
    | cons t rest =>
      cases t with
      | plus =>
        cases hp : parseTerm rest with
        | error e => simp [parseExprLoop, hp, Except.map]
        | ok p =>
          obtain ⟨tm, ts2⟩ := p
          cases tm with
          | dice gp =>
            simp only [parseExprLoop, hp, List.nil_append]
            rw [ih (acc ++ [gp]) m ts2, ih [gp] 0 ts2]
            cases hbase : parseExprLoop fuel [] 0 ts2 with
            | error e => simp [Except.map]
            | ok q => simp [Except.map, List.append_assoc]
          | num n =>
            simp only [parseExprLoop, hp]
            rw [ih acc (m + n) ts2, ih [] (0 + n) ts2]
            cases hbase : parseExprLoop fuel [] 0 ts2 with
            | error e => simp [Except.map]
            | ok q => simp [Except.map]; omega
      | minus =>
        cases hp : parseTerm rest with
        | error e => simp [parseExprLoop, hp, Except.map]
        | ok p =>
          obtain ⟨tm, ts2⟩ := p
          cases tm with
          | dice gp =>
            simp only [parseExprLoop, hp, List.nil_append]
            rw [ih (acc ++ [gp]) m ts2, ih [gp] 0 ts2]
            cases hbase : parseExprLoop fuel [] 0 ts2 with
            | error e => simp [Except.map]
            | ok q => simp [Except.map, List.append_assoc]
          | num n =>
            simp only [parseExprLoop, hp]
            rw [ih acc (m - n) ts2, ih [] (0 - n) ts2]
            cases hbase : parseExprLoop fuel [] 0 ts2 with
            | error e => simp [Except.map]
            | ok q => simp [Except.map]; omega
      | eof => simp [parseExprLoop, Except.map]
      | num n => rfl
      | d => rfl
      | kh => rfl
      | kl => rfl
      | dh => rfl
      | dl => rfl
      | explode => rfl
      | reroll => rfl
      | percent => rfl

/-! ## Claims -/

/-- Claim C1: for every RollResult returned by executeRoll, the
subtotal equals the sum of `value` over the entries with `kept = true`
across all groups, and the total equals the subtotal plus the
expression modifier (which the result carries verbatim). -/
theorem executeRoll_subtotal_total (g : RandSrc) (parsed : Expression) (input : String) :
    (executeRoll g parsed input).subtotal =
      (((executeRoll g parsed input).rolls.filter (fun r => r.kept)).map
        (fun r => r.value)).sum ∧
    (executeRoll g parsed input).total =
      ((executeRoll g parsed input).subtotal : Int) +
        (executeRoll g parsed input).modifier ∧
    (executeRoll g parsed input).modifier = parsed.modifier := by
  refine ⟨?_, rfl, rfl⟩
  simp [executeRoll, calculateSubtotal_eq]

/-- Claim C6: the parsed modifier is the signed sum of the bare-number
terms.  The first conjunct is the general additivity of the operator
loop (the produced modifier is the start value shifted by the net of
the remaining terms, and dice groups are appended in order, unsigned);
the next two record that a `+`-term adds and a `-`-term subtracts its
number; the final conjuncts are the concrete examples. -/
theorem parse_modifier_signed_sum :
    (∀ (fuel : Nat) (acc : List DiceGroup) (m : Int) (ts : List Token),
      parseExprLoop fuel acc m ts =
        (parseExprLoop fuel [] 0 ts).map
          (fun p => (⟨acc ++ p.1.dice, m + p.1.modifier⟩, p.2))) ∧
    (∀ (fuel : Nat) (acc : List DiceGroup) (m : Int) (n : Nat) (rest : List Token),
      parseExprLoop (fuel + 1) acc m (Token.plus :: Token.num n :: Token.eof :: rest) =
        parseExprLoop fuel acc (m + n) (Token.eof :: rest)) ∧
    (∀ (fuel : Nat) (acc : List DiceGroup) (m : Int) (n : Nat) (rest : List Token),
      parseExprLoop (fuel + 1) acc m (Token.minus :: Token.num n :: Token.eof :: rest) =
        parseExprLoop fuel acc (m - n) (Token.eof :: rest)) ∧
    parse "2d6+3" = .ok ⟨[⟨2, 6, none, none, false, none⟩], 3⟩ ∧
    parse "2d6-2" = .ok ⟨[⟨2, 6, none, none, false, none⟩], -2⟩ ∧
    parse "2d6+1d4+5" = .ok ⟨[⟨2, 6, none, none, false, none⟩,
      ⟨1, 4, none, none, false, none⟩], 5⟩ := by
  refine ⟨parseExprLoop_shift, ?_, ?_, by decide, by decide, by decide⟩
  · intro fuel acc m n rest; rfl
  · intro fuel acc m n rest; rfl

/-- Claim C7: `parse` fails on "invalid" (lexical error), "1d" (no
sides after d) and "2d6r" (no number after the reroll operator). -/
theorem parse_rejects_malformed :
    (parse "invalid").isOk = false ∧
    (parse "1d").isOk = false ∧
    (parse "2d6r").isOk = false := by
  decide

/-- Claim C8, counterexample: `parse` accepts "0d6" and returns a dice
group with `count = 0`, so neither the `count ≥ 1` invariant nor the
claimed rejection of non-positive counts holds. -/
theorem parse_accepts_zero_count :
    parse "0d6" = .ok ⟨[⟨0, 6, none, none, false, none⟩], 0⟩ := by
  decide

/-- Claim C8, amended: `parse` applies no positivity validation —
`count` and `sides` are the literals of the notation ("1d0" produces
`sides = 0`), and a missing count defaults to 1. -/
theorem parse_no_positivity_guard :
    parse "1d0" = .ok ⟨[⟨1, 0, none, none, false, none⟩], 0⟩ ∧
    parse "d6" = .ok ⟨[⟨1, 6, none, none, false, none⟩], 0⟩ := by
  decide

/-- Claim C10: a `-` before a dice term has no effect: the operator
loop treats `+` and `-` identically whenever the following term is a
dice term (the group is appended unsigned and the modifier untouched),
and concretely `parse "2d6-1d4"` equals `parse "2d6+1d4"`, both groups
entering the subtotal positively. -/
theorem minus_dice_sign_ignored (fuel : Nat) (acc : List DiceGroup)
    (m : Int) (ts ts2 : List Token) (gp : DiceGroup)
    (h : parseTerm ts = .ok (PTerm.dice gp, ts2)) :
    parseExprLoop (fuel + 1) acc m (Token.plus :: ts) =
      parseExprLoop (fuel + 1) acc m (Token.minus :: ts) ∧
    parse "2d6-1d4" = parse "2d6+1d4" ∧
    parse "2d6-1d4" = .ok ⟨[⟨2, 6, none, none, false, none⟩,
      ⟨1, 4, none, none, false, none⟩], 0⟩ := by
  refine ⟨?_, by decide, by decide⟩
  simp only [parseExprLoop]
  rw [h]

/-- Witness for `minus_dice_ignored`: instantiated at the token tail of
"1d4". -/
theorem minus_dice_sign_ignored_witness :
    parseExprLoop 1 [] 0 (Token.plus :: [Token.num 1, Token.d, Token.num 4, Token.eof]) =
      parseExprLoop 1 [] 0 (Token.minus :: [Token.num 1, Token.d, Token.num 4, Token.eof]) ∧
    parse "2d6-1d4" = parse "2d6+1d4" ∧
    parse "2d6-1d4" = .ok ⟨[⟨2, 6, none, none, false, none⟩,
      ⟨1, 4, none, none, false, none⟩], 0⟩ :=
  minus_dice_sign_ignored 0 [] 0 [Token.num 1, Token.d, Token.num 4, Token.eof]
    [Token.eof] ⟨1, 4, none, none, false, none⟩ (by decide)

/-- Every entry appended by the explosion loop is marked exploded. -/
theorem explodeLoop_exploded (g : RandSrc) (sides : Nat) :
    ∀ (fuel prev k ec : Nat) (e : RollEntry),
      e ∈ (explodeLoop g sides fuel prev k ec).1 → e.exploded = true := by
  intro fuel
  induction fuel with
  | zero => intro prev k ec e he; simp [explodeLoop] at he
  | succ fuel ih =>
    intro prev k ec e he
    by_cases h1 : prev = sides ∧ ec < maxExplosions
    · by_cases h2 : rollDie g k sides = sides
      · simp [explodeLoop, h1, h2] at he
        rcases he with he | he
        · rw [he]
        · exact ih _ _ _ _ he
      · simp [explodeLoop, h1, h2] at he
        rw [he]
    · simp [explodeLoop, h1] at he

/-- The explosion loop advances the counter by exactly the number of
entries it appends and never drives it past the cap. -/
theorem explodeLoop_count (g : RandSrc) (sides : Nat) :
    ∀ (fuel prev k ec : Nat), ec ≤ maxExplosions →
      (explodeLoop g sides fuel prev k ec).2.2 ≤ maxExplosions ∧
      ec ≤ (explodeLoop g sides fuel prev k ec).2.2 ∧
      (explodeLoop g sides fuel prev k ec).1.length =
        (explodeLoop g sides fuel prev k ec).2.2 - ec := by
  intro fuel
  induction fuel with
  | zero => intro prev k ec hec; simp [explodeLoop]; omega
  | succ fuel ih =>
    intro prev k ec hec
    by_cases h1 : prev = sides ∧ ec < maxExplosions
    · by_cases h2 : rollDie g k sides = sides
      · have hih := ih (rollDie g k sides) (k + 1) (ec + 1) (by omega)
        rw [h2] at hih
        simp [explodeLoop, h1, h2]
        omega
      · simp [explodeLoop, h1, h2]
        omega
    · simp [explodeLoop, h1]
      omega

/-- An initial (non-explosion) entry is never marked exploded. -/
theorem rollInitialDie_exploded (g : RandSrc) (sides : Nat)
    (reroll : Option Nat) (k : Nat) :
    (rollInitialDie g sides reroll k).1.exploded = false := by
  unfold rollInitialDie
  cases reroll with
  | none => rfl
  | some target => by_cases h : rollDie g k sides = target <;> simp [h]

/-- The initial-dice loop: the number of exploded entries in its output
equals the total rise of the explosion counter, which never exceeds the
cap. -/
theorem rollDiceLoop_cap (g : RandSrc) (dg : DiceGroup) :
    ∀ (n k ec : Nat), ec ≤ maxExplosions →
      (rollDiceLoop g dg n k ec).2.2 ≤ maxExplosions ∧
      ec ≤ (rollDiceLoop g dg n k ec).2.2 ∧
      ((rollDiceLoop g dg n k ec).1.filter (fun r => r.exploded)).length =
        (rollDiceLoop g dg n k ec).2.2 - ec := by
  intro n
  induction n with
  | zero => intro k ec hec; simp [rollDiceLoop]; omega
  | succ n ih =>
    intro k ec hec
    rcases hp : rollInitialDie g dg.sides dg.reroll k with ⟨entry, k1⟩
    have hentry : entry.exploded = false := by
      have h0 := rollInitialDie_exploded g dg.sides dg.reroll k
      rw [hp] at h0
      exact h0
    simp only [rollDiceLoop, hp]
    by_cases hcond : dg.exploding = true ∧ entry.value = dg.sides ∧ ec < maxExplosions
    · rw [if_pos hcond]
      rcases hex : explodeLoop g dg.sides (maxExplosions - ec) entry.value k1 ec
        with ⟨expl, k2, ec2⟩
      have hcnt := explodeLoop_count g dg.sides (maxExplosions - ec) entry.value k1 ec hec
      rw [hex] at hcnt
      have hex2 : ∀ e ∈ expl, e.exploded = true := by
        intro e he
        have h3 := explodeLoop_exploded g dg.sides (maxExplosions - ec) entry.value k1 ec e
        rw [hex] at h3
        exact h3 he
      have hfe : expl.filter (fun r => r.exploded) = expl :=
        List.filter_eq_self.mpr hex2
      dsimp only at hcnt
      rcases hrest : rollDiceLoop g dg n k2 ec2 with ⟨rest, k3, ec3⟩
      have hih := ih k2 ec2 (by omega)
      rw [hrest] at hih
      dsimp only at hih
      simp only [List.filter_cons, hentry, Bool.false_eq_true, if_false,
        List.filter_append, hfe, List.length_append]
      omega
    · rw [if_neg hcond]
      rcases hrest : rollDiceLoop g dg n k1 ec with ⟨rest, k3, ec3⟩
      have hih := ih k1 ec hec
      rw [hrest] at hih
      dsimp only at hih
      simp only [List.filter_cons, hentry, Bool.false_eq_true, if_false,
        List.nil_append]
      omega

/-- Claim C3: explosions are chained while the maximum face recurs but
are capped at 100 explosion rolls per group, so every roll terminates;
concretely, `1d6!` against a stub that always yields the maximum face
produces exactly one initial entry plus 100 explosion entries and
stops.  (The stub stream constantly supplies the word 5, which
`randomInt` maps to the maximum face 6.) -/
theorem explosion_cap :
    (∀ (g : RandSrc) (dg : DiceGroup) (k : Nat),
      ((rollDiceGroup g dg k).1.filter (fun r => r.exploded)).length ≤ maxExplosions) ∧
    (rollDiceGroup (fun _ => 5) ⟨1, 6, none, none, true, none⟩ 0).1.length = 101 ∧
    ((rollDiceGroup (fun _ => 5) ⟨1, 6, none, none, true, none⟩ 0).1.filter
      (fun r => r.exploded)).length = 100 := by
  refine ⟨?_, by decide, by decide⟩
  intro g dg k
  have := rollDiceLoop_cap g dg dg.count k 0 (by simp [maxExplosions])
  unfold rollDiceGroup
  omega

/-- Claim C4: with `reroll = n`, an initial die whose fresh value
equals `n` is rolled exactly once more (two draws), keeping the
original value in `originalValue`, setting `rerolled`, and never
re-examining the replacement value; any other fresh value is kept
after a single draw.  The second conjunct shows the initial-dice loop
applies exactly this step to each of the `count` dice when no
explosion is configured; the third runs the specification stub (a
source always producing the reroll target 1 on `2d6r1`): both dice end
`rerolled = true` with `value = 1` — equal to the target yet not
rerolled again — after exactly four draws. -/
theorem reroll_single :
    (∀ (g : RandSrc) (sides target k : Nat),
      rollInitialDie g sides (some target) k =
        if rollDie g k sides = target then
          (⟨dieLabel sides, rollDie g (k + 1) sides, true, false, false, true,
            some (rollDie g k sides)⟩, k + 2)
        else
          (⟨dieLabel sides, rollDie g k sides, true, false, false, false, none⟩,
            k + 1)) ∧
    (∀ (g : RandSrc) (c sides target n k ec : Nat) (kp dp : Option KDSpec),
      rollDiceLoop g ⟨c, sides, kp, dp, false, some target⟩ (n + 1) k ec =
        ((rollInitialDie g sides (some target) k).1 ::
          (rollDiceLoop g ⟨c, sides, kp, dp, false, some target⟩ n
            (rollInitialDie g sides (some target) k).2 ec).1,
         (rollDiceLoop g ⟨c, sides, kp, dp, false, some target⟩ n
           (rollInitialDie g sides (some target) k).2 ec).2)) ∧
    rollDiceGroup (fun _ => 0) ⟨2, 6, none, none, false, some 1⟩ 0 =
      ([⟨"d6", 1, true, false, false, true, some 1⟩,
        ⟨"d6", 1, true, false, false, true, some 1⟩], 4, 0) := by
  refine ⟨?_, ?_, by decide⟩
  · intro g sides target k
    rfl
  · intro g c sides target n k ec kp dp
    rcases hp : rollInitialDie g sides (some target) k with ⟨entry, k1⟩
    simp [rollDiceLoop, hp]

/-- The selection comparator is transitive. -/
theorem cmpLe_trans (t : KDType) (a b c : Nat × Nat) :
    cmpLe t a b = true → cmpLe t b c = true → cmpLe t a c = true := by
  cases t <;> simp [cmpLe] <;> omega

/-- The selection comparator is total. -/
theorem cmpLe_total (t : KDType) (a b : Nat × Nat) :
    (cmpLe t a b || cmpLe t b a) = true := by
  cases t <;> simp [cmpLe] <;> omega

/-- The sorted kept pairs are a permutation of the kept pairs. -/
theorem sortedKept_perm (t : KDType) (rolls : List RollEntry) :
    (sortedKept t rolls).Perm (keptPairs rolls) :=
  List.mergeSort_perm _ _

/-- The original indices recorded in the kept pairs are pairwise
distinct. -/
theorem keptPairs_snd_nodup (rolls : List RollEntry) :
    ((keptPairs rolls).map Prod.snd).Nodup := by
  unfold keptPairs
  rw [List.map_map]
  have heq : (Prod.snd ∘ fun p : Nat × RollEntry => (p.2.value, p.1)) = Prod.fst := rfl
  rw [heq]
  have hsub : ((rolls.enum.filter (fun p => p.2.kept)).map Prod.fst).Sublist
      (rolls.enum.map Prod.fst) := (List.filter_sublist _).map _
  rw [List.enum_map_fst] at hsub
  exact hsub.nodup (List.nodup_range _)

/-- The sorted kept pairs are strictly ordered: by value in the
direction of the mode, ties broken by the earlier original index. -/
theorem sortedKept_pairwise (t : KDType) (rolls : List RollEntry) :
    (sortedKept t rolls).Pairwise (strictOrd t) := by
  have hs := List.sorted_mergeSort (cmpLe_trans t) (cmpLe_total t) (keptPairs rolls)
  have hnd : ((sortedKept t rolls).map Prod.snd).Nodup :=
    (((sortedKept_perm t rolls).map Prod.snd).nodup_iff).mpr (keptPairs_snd_nodup rolls)
  have hpw : (sortedKept t rolls).Pairwise (fun a b => a.2 ≠ b.2) :=
    List.pairwise_map.mp hnd
  refine (hs.and hpw).imp ?_
  intro a b hab
  obtain ⟨h1, h2⟩ := hab
  cases t <;> simp [cmpLe] at h1 <;> simp [strictOrd] <;> omega

/-- Every pair the selection sort works on refers to an entry that was
still marked kept when the sort ran. -/
theorem sortedKept_all_kept (t : KDType) (rolls : List RollEntry) :
    (sortedKept t rolls).all (fun p => (rolls.getD p.2 default).kept) = true := by
  rw [List.all_eq_true]
  intro p hp
  have hp2 : p ∈ keptPairs rolls := (sortedKept_perm t rolls).mem_iff.mp hp
  unfold keptPairs at hp2
  rw [List.mem_map] at hp2
  obtain ⟨q, hq, rfl⟩ := hp2
  rw [List.mem_filter] at hq
  obtain ⟨hqmem, hqkept⟩ := hq
  rw [List.mem_enum_iff_getElem?] at hqmem
  simp [List.getD_eq_getElem?_getD, hqmem]
  exact hqkept

/-- `applyKeep` pointwise: an entry ends up kept exactly when its index
is among the first `count` of the sorted ordering of previously kept
entries; no other field changes. -/
theorem applyKeep_pointwise (rolls : List RollEntry) (kp : KDSpec) :
    applyKeep rolls (some kp) =
      rolls.mapIdx (fun i r =>
        { r with kept :=
            (((sortedKept kp.type rolls).take kp.count).map (fun p => p.2)).contains i }) := by
  show (rolls.mapIdx fun i r =>
      if (((sortedKept kp.type rolls).take kp.count).map (fun p => p.2)).contains i
      then { r with kept := true }
      else if r.kept then { r with kept := false } else r) = _
  rw [List.mapIdx_eq_enum_map, List.mapIdx_eq_enum_map]
  apply List.map_congr_left
  intro a _
  obtain ⟨i, r⟩ := a
  simp only [Function.uncurry]
  by_cases hc : (((sortedKept kp.type rolls).take kp.count).map (fun p => p.2)).contains i = true
  · rw [if_pos hc, hc]
  · have hcf : (((sortedKept kp.type rolls).take kp.count).map (fun p => p.2)).contains i = false :=
      Bool.not_eq_true _ |>.mp hc
    rw [if_neg hc, hcf]
    cases hr : r.kept
    · rw [if_neg Bool.false_ne_true]
      cases r
      simp_all
    · rw [if_pos rfl]

/-- `applyKeep` never touches the dropped flag of any entry. -/
theorem applyKeep_dropped (rolls : List RollEntry) (keep : Option KDSpec) :
    (applyKeep rolls keep).map (fun r => r.dropped) = rolls.map (fun r => r.dropped) := by
  cases keep with
  | none => rfl
  | some kp =>
    rw [applyKeep_pointwise, List.mapIdx_eq_enum_map, List.map_map]
    have hcongr : ∀ a ∈ rolls.enum,
        ((fun r : RollEntry => r.dropped) ∘ Function.uncurry (fun (i : Nat) (r : RollEntry) =>
          { r with kept :=
              (((sortedKept kp.type rolls).take kp.count).map
                (fun p : Nat × Nat => p.2)).contains i })) a =
        ((fun r : RollEntry => r.dropped) ∘ Prod.snd) a := by
      intro a _
      obtain ⟨i, r⟩ := a
      rfl
    rw [List.map_congr_left hcongr, ← List.map_map, List.enum_map_snd]

/-- Claim C2: within a group carrying keep and/or drop, executeRoll
applies drop before keep (conjunct 1); each stage sorts the pairs of
the entries still kept at that moment by value — descending for
highest, ascending for lowest — with ties broken towards the earlier
original roll index (conjuncts 2 and 3), and works only on entries
kept at the time (conjunct 4); drop marks exactly the first
`drop.count` of that ordering `kept = false, dropped = true`, leaving
the rest untouched (conjunct 5); keep retains exactly the top
`keep.count`, clears `kept` on the rest of the set (conjunct 6), and
never marks anything dropped (conjunct 7). -/
theorem selection_drop_then_keep :
    (∀ (g : RandSrc) (dg : DiceGroup) (k : Nat),
      (rollGroups g [dg] k).1 =
        applyKeep (applyDrop (rollDiceGroup g dg k).1 dg.drop) dg.keep) ∧
    (∀ (t : KDType) (rolls : List RollEntry),
      (sortedKept t rolls).Perm (keptPairs rolls)) ∧
    (∀ (t : KDType) (rolls : List RollEntry),
      (sortedKept t rolls).Pairwise (strictOrd t)) ∧
    (∀ (t : KDType) (rolls : List RollEntry),
      (sortedKept t rolls).all (fun p => (rolls.getD p.2 default).kept) = true) ∧
    (∀ (rolls : List RollEntry) (dp : KDSpec),
      applyDrop rolls (some dp) =
        rolls.mapIdx (fun i r =>
          if (((sortedKept dp.type rolls).take dp.count).map (fun p => p.2)).contains i
          then { r with kept := false, dropped := true }
          else r)) ∧
    (∀ (rolls : List RollEntry) (kp : KDSpec),
      applyKeep rolls (some kp) =
        rolls.mapIdx (fun i r =>
          { r with kept :=
              (((sortedKept kp.type rolls).take kp.count).map (fun p => p.2)).contains i })) ∧
    (∀ (rolls : List RollEntry) (keep : Option KDSpec),
      (applyKeep rolls keep).map (fun r => r.dropped) =
        rolls.map (fun r => r.dropped)) := by
  refine ⟨?_, sortedKept_perm, sortedKept_pairwise, sortedKept_all_kept,
    fun rolls dp => rfl, applyKeep_pointwise, applyKeep_dropped⟩
  intro g dg k
  simp [rollGroups]

/-- Every die roll lies in `[1, sides]` when `sides ≥ 1`. -/
theorem rollDie_bounds (g : RandSrc) (k sides : Nat) (h : 1 ≤ sides) :
    1 ≤ rollDie g k sides ∧ rollDie g k sides ≤ sides := by
  unfold rollDie randomInt
  have h2 : sides - 1 + 1 = sides := by omega
  rw [h2]
  have h3 := Nat.mod_lt (g k) (show 0 < sides by omega)
  omega

/-- Values of explosion entries are in range. -/
theorem explodeLoop_value_bounds (g : RandSrc) (sides : Nat) (hs : 1 ≤ sides) :
    ∀ (fuel prev k ec : Nat) (e : RollEntry),
      e ∈ (explodeLoop g sides fuel prev k ec).1 →
      1 ≤ e.value ∧ e.value ≤ sides := by
  intro fuel
  induction fuel with
  | zero => intro prev k ec e he; simp [explodeLoop] at he
  | succ fuel ih =>
    intro prev k ec e he
    by_cases h1 : prev = sides ∧ ec < maxExplosions
    · by_cases h2 : rollDie g k sides = sides
      · simp [explodeLoop, h1, h2] at he
        rcases he with he | he
        · rw [he]
          refine ⟨?_, ?_⟩ <;> simp
          omega
        · exact ih _ _ _ _ he
      · simp [explodeLoop, h1, h2] at he
        rw [he]
        exact rollDie_bounds g k sides hs
    · simp [explodeLoop, h1] at he

/-- The value of an initial entry is in range. -/
theorem rollInitialDie_value_bounds (g : RandSrc) (sides : Nat)
    (reroll : Option Nat) (k : Nat) (hs : 1 ≤ sides) :
    1 ≤ (rollInitialDie g sides reroll k).1.value ∧
    (rollInitialDie g sides reroll k).1.value ≤ sides := by
  unfold rollInitialDie
  cases reroll with
  | none => exact rollDie_bounds g k sides hs
  | some target =>
    by_cases h : rollDie g k sides = target
    · simp only [h, if_true]
      exact rollDie_bounds g (k + 1) sides hs
    · simp only [h, if_false]
      exact rollDie_bounds g k sides hs

/-- All raw values produced for a group are in range. -/
theorem rollDiceLoop_value_bounds (g : RandSrc) (dg : DiceGroup)
    (hs : 1 ≤ dg.sides) :
    ∀ (n k ec : Nat) (e : RollEntry), e ∈ (rollDiceLoop g dg n k ec).1 →
      1 ≤ e.value ∧ e.value ≤ dg.sides := by
  intro n
  induction n with
  | zero => intro k ec e he; simp [rollDiceLoop] at he
  | succ n ih =>
    intro k ec e he
    rcases hp : rollInitialDie g dg.sides dg.reroll k with ⟨entry, k1⟩
    simp only [rollDiceLoop, hp] at he
    by_cases hcond : dg.exploding = true ∧ entry.value = dg.sides ∧ ec < maxExplosions
    · rw [if_pos hcond] at he
      rcases hex : explodeLoop g dg.sides (maxExplosions - ec) entry.value k1 ec
        with ⟨expl, k2, ec2⟩
      rw [hex] at he
      simp only [List.mem_cons, List.mem_append] at he
      rcases he with he | he | he
      · have hb := rollInitialDie_value_bounds g dg.sides dg.reroll k hs
        rw [hp] at hb
        rw [he]
        exact hb
      · have hb := explodeLoop_value_bounds g dg.sides hs (maxExplosions - ec)
          entry.value k1 ec e
        rw [hex] at hb
        exact hb he
      · exact ih _ _ _ he
    · rw [if_neg hcond] at he
      simp only [List.nil_append, List.mem_cons] at he
      rcases he with he | he
      · have hb := rollInitialDie_value_bounds g dg.sides dg.reroll k hs
        rw [hp] at hb
        rw [he]
        exact hb
      · exact ih _ _ _ he

/-- `applyDrop` changes no value. -/
theorem applyDrop_values (rolls : List RollEntry) (drop : Option KDSpec) :
    (applyDrop rolls drop).map (fun r => r.value) = rolls.map (fun r => r.value) := by
  cases drop with
  | none => rfl
  | some dp =>
    show ((rolls.mapIdx fun i r =>
        if (((sortedKept dp.type rolls).take dp.count).map (fun p => p.2)).contains i
        then { r with kept := false, dropped := true }
        else r).map (fun r => r.value)) = _
    rw [List.mapIdx_eq_enum_map, List.map_map]
    have hcongr : ∀ a ∈ rolls.enum,
        ((fun r : RollEntry => r.value) ∘ Function.uncurry (fun (i : Nat) (r : RollEntry) =>
          if (((sortedKept dp.type rolls).take dp.count).map
              (fun p : Nat × Nat => p.2)).contains i
          then { r with kept := false, dropped := true }
          else r)) a =
        ((fun r : RollEntry => r.value) ∘ Prod.snd) a := by
      intro a _
      obtain ⟨i, r⟩ := a
      simp only [Function.uncurry, Function.comp]
      split <;> rfl
    rw [List.map_congr_left hcongr, ← List.map_map, List.enum_map_snd]

/-- `applyKeep` changes no value. -/
theorem applyKeep_values (rolls : List RollEntry) (keep : Option KDSpec) :
    (applyKeep rolls keep).map (fun r => r.value) = rolls.map (fun r => r.value) := by
  cases keep with
  | none => rfl
  | some kp =>
    rw [applyKeep_pointwise, List.mapIdx_eq_enum_map, List.map_map]
    have hcongr : ∀ a ∈ rolls.enum,
        ((fun r : RollEntry => r.value) ∘ Function.uncurry (fun (i : Nat) (r : RollEntry) =>
          { r with kept :=
              (((sortedKept kp.type rolls).take kp.count).map
                (fun p : Nat × Nat => p.2)).contains i })) a =
        ((fun r : RollEntry => r.value) ∘ Prod.snd) a := by
      intro a _
      obtain ⟨i, r⟩ := a
      rfl
    rw [List.map_congr_left hcongr, ← List.map_map, List.enum_map_snd]

/-- Every entry of the segment a group contributes to the result has
its value within `[1, sides]` of that very group. -/
theorem groupRolls_value_bounds (g : RandSrc) (dg : DiceGroup) (k : Nat)
    (hs : 1 ≤ dg.sides) :
    ∀ e ∈ groupRolls g dg k, 1 ≤ e.value ∧ e.value ≤ dg.sides := by
  intro e he
  have hv : e.value ∈ (groupRolls g dg k).map (fun r => r.value) :=
    List.mem_map.mpr ⟨e, he, rfl⟩
  unfold groupRolls at hv
  rw [applyKeep_values, applyDrop_values] at hv
  obtain ⟨e0, he0, hval⟩ := List.mem_map.mp hv
  have hb := rollDiceLoop_value_bounds g dg hs dg.count k 0 e0 he0
  omega

/-- The rolls produced by the group loop of executeRoll are exactly
the per-group segments concatenated in group order. -/
theorem rollGroups_eq_segments (g : RandSrc) :
    ∀ (gs : List DiceGroup) (k : Nat),
      (rollGroups g gs k).1 = (groupSegments g gs k).flatten := by
  intro gs
  induction gs with
  | nil => intro k; rfl
  | cons dg rest ih =>
    intro k
    simp [rollGroups, groupSegments, groupRolls, List.flatten_cons, ih]

/-- There is exactly one segment per dice group. -/
theorem groupSegments_length (g : RandSrc) :
    ∀ (gs : List DiceGroup) (k : Nat),
      (groupSegments g gs k).length = gs.length := by
  intro gs
  induction gs with
  | nil => intro k; rfl
  | cons dg rest ih => intro k; simp [groupSegments, ih]

/-- Pairing each group with its own segment: every entry of the
segment is bounded by the sides of the group that produced it. -/
theorem groupSegments_value_bounds (g : RandSrc) :
    ∀ (gs : List DiceGroup) (k : Nat), (∀ dg ∈ gs, 1 ≤ dg.sides) →
      ∀ p ∈ gs.zip (groupSegments g gs k), ∀ e ∈ p.2,
        1 ≤ e.value ∧ e.value ≤ p.1.sides := by
  intro gs
  induction gs with
  | nil => intro k h p hp e he; simp [groupSegments] at hp
  | cons dg rest ih =>
    intro k h p hp e he
    simp only [groupSegments, List.zip_cons_cons, List.mem_cons] at hp
    rcases hp with hp | hp
    · rw [hp] at he
      rw [hp]
      exact groupRolls_value_bounds g dg k (h dg (List.mem_cons_self dg rest)) e he
    · exact ih _ (fun d hd => h d (List.mem_cons_of_mem dg hd)) p hp e he

/-- Claim C5 (amended): when every dice group of the expression has
`sides ≥ 1` — true of any notation whose side literals are positive —
every generated RollEntry has `1 ≤ value ≤ sides` of its own dice
group: the result rolls are exactly one segment per group, in group
order, and within each segment every value is within `[1, sides]` of
the group that produced that segment. -/
theorem roll_value_range (g : RandSrc) (parsed : Expression) (input : String)
    (h : ∀ dg ∈ parsed.dice, 1 ≤ dg.sides) :
    (executeRoll g parsed input).rolls = (groupSegments g parsed.dice 0).flatten ∧
    (groupSegments g parsed.dice 0).length = parsed.dice.length ∧
    ∀ p ∈ parsed.dice.zip (groupSegments g parsed.dice 0), ∀ e ∈ p.2,
      1 ≤ e.value ∧ e.value ≤ p.1.sides :=
  ⟨rollGroups_eq_segments g parsed.dice 0, groupSegments_length g parsed.dice 0,
    groupSegments_value_bounds g parsed.dice 0 h⟩

/-- Witness for `roll_value_range` at the expression of "2d6" against
the identity word stream. -/
theorem roll_value_range_witness :
    (∀ dg ∈ (⟨[⟨2, 6, none, none, false, none⟩], 0⟩ : Expression).dice, 1 ≤ dg.sides) ∧
    ((executeRoll (fun n => n) ⟨[⟨2, 6, none, none, false, none⟩], 0⟩ "2d6").rolls =
        (groupSegments (fun n => n) [⟨2, 6, none, none, false, none⟩] 0).flatten ∧
      (groupSegments (fun n => n) [⟨2, 6, none, none, false, none⟩] 0).length =
        [(⟨2, 6, none, none, false, none⟩ : DiceGroup)].length ∧
      ∀ p ∈ [(⟨2, 6, none, none, false, none⟩ : DiceGroup)].zip
          (groupSegments (fun n => n) [⟨2, 6, none, none, false, none⟩] 0),
        ∀ e ∈ p.2, 1 ≤ e.value ∧ e.value ≤ p.1.sides) :=
  ⟨by decide,
    roll_value_range (fun n => n) ⟨[⟨2, 6, none, none, false, none⟩], 0⟩ "2d6" (by decide)⟩

/-- Claim C5, counterexample: the claim quantifies over every parsed
notation, but "1d0" parses to a group with `sides = 0`, and the entry
rolled for it violates `1 ≤ value ≤ sides`.  (JavaScript produces the
value `NaN` here, which also fails both comparisons; the Nat model
produces `1 + word % 0`, which fails the upper bound.) -/
theorem roll_value_range_cex :
    parse "1d0" = .ok ⟨[⟨1, 0, none, none, false, none⟩], 0⟩ ∧
    ((executeRoll (fun _ => 0) ⟨[⟨1, 0, none, none, false, none⟩], 0⟩ "1d0").rolls.all
      (fun e => decide (1 ≤ e.value) && decide (e.value ≤ 0))) = false := by
  decide

/-- Counting residues below `N`: the residue class `r` modulo 6 has
`N / 6` members below `N`, plus one more when `r < N % 6`. -/
theorem card_range_filter_mod6 :
    ∀ (N r : Nat), r < 6 →
      ((Finset.range N).filter (fun x => x % 6 = r)).card =
        N / 6 + (if r < N % 6 then 1 else 0) := by
  intro N
  induction N with
  | zero => intro r hr; simp
  | succ N ih =>
    intro r hr
    rw [Finset.range_succ, Finset.filter_insert]
    by_cases h : N % 6 = r
    · rw [if_pos h, Finset.card_insert_of_not_mem (by simp), ih r hr]
      split_ifs <;> omega
    · rw [if_neg h, ih r hr]
      split_ifs <;> omega

set_option maxRecDepth 4096 in
/-- Claim C9 is false of the code: `randomInt(1, 6)` reduces a uniform
32-bit word modulo 6, and `2^32 = 6 * 715827882 + 4`, so the outputs
1 through 4 each have 715827883 preimages while 5 and 6 have only
715827882 — the outputs are not equidistributed.  (The repository
design document promises unbiased rolls, so this is a defect of the
code, the classic modulo bias.) -/
theorem randomInt_mod_bias :
    preimageCount 6 1 = 715827883 ∧
    preimageCount 6 5 = 715827882 ∧
    preimageCount 6 1 ≠ preimageCount 6 5 := by
  have key : ∀ v : Nat, 1 ≤ v → v < 7 →
      preimageCount 6 v =
        ((Finset.range (2 ^ 32)).filter (fun x => x % 6 = v - 1)).card := by
    intro v hv1 hv7
    unfold preimageCount
    refine congrArg Finset.card ?_
    apply Finset.filter_congr
    intro x _
    simp only [randomInt]
    omega
  have e1 : preimageCount 6 1 = 715827883 := by
    rw [key 1 (by omega) (by omega), card_range_filter_mod6 (2 ^ 32) 0 (by omega)]
    decide
  have e5 : preimageCount 6 5 = 715827882 := by
    rw [key 5 (by omega) (by omega), card_range_filter_mod6 (2 ^ 32) 4 (by omega)]
    decide
  exact ⟨e1, e5, by omega⟩
